import Mathlib

/-!
# Verification of `fetch_news.py`

A shallow embedding of the AI-news fetching script: timestamps are instants
in seconds since the Unix epoch (`Int`), aware datetimes carry a display
offset, fallible external calls (feed parsing, translation) are passed in as
`Except`-valued functions, and the per-run file/ledger effects are modelled
as pure state transformations.
-/

namespace AINews

/-- Offset of the presentation timezone in seconds:
`JST = timezone(timedelta(hours=9))`, i.e. UTC+9. -/
def JST_offset : Int := 9 * 3600

/-- The constant `HOURS_LIMIT = 48`: how many hours of articles to keep. -/
def HOURS_LIMIT : Int := 48

/-- An aware Python `datetime`: an absolute instant (seconds since the Unix
epoch) plus the display timezone offset in seconds.  Python compares aware
datetimes by absolute instant and formats them on the local clock
`instant + tzOffset`. -/
structure AwareDT where
  instant : Int
  tzOffset : Int
deriving DecidableEq, Repr

/-- Model of `datetime(*t[:6], tzinfo=timezone.utc)`: interpret a naive timestamp as
UTC. -/
def utcDatetime (naive : Int) : AwareDT := ⟨naive, 0⟩

/-- Model of `.astimezone(off)`: same instant, new display offset. -/
def AwareDT.astimezone (d : AwareDT) (off : Int) : AwareDT := ⟨d.instant, off⟩

/-- Python `<` on aware datetimes compares absolute instants. -/
def AwareDT.ltDT (a b : AwareDT) : Prop := a.instant < b.instant

instance (a b : AwareDT) : Decidable (a.ltDT b) :=
  inferInstanceAs (Decidable (a.instant < b.instant))

/-- The value `datetime.now(JST)` at a given absolute instant. -/
def nowJST (nowInstant : Int) : AwareDT := ⟨nowInstant, JST_offset⟩

/-- Subtracting a `timedelta` of `s` seconds keeps the timezone. -/
def AwareDT.subSeconds (d : AwareDT) (s : Int) : AwareDT := ⟨d.instant - s, d.tzOffset⟩

/-- The cutoff `cutoff_time = datetime.now(JST) - timedelta(hours=HOURS_LIMIT)`. -/
def cutoffDT (nowInstant : Int) : AwareDT :=
  (nowJST nowInstant).subSeconds (HOURS_LIMIT * 3600)

/-- Gregorian civil date of a day count since 1970-01-01 (the standard
era-based conversion); returns `(year, month, day)`. -/
def civilFromDays (z0 : Int) : Int × Int × Int :=
  let z := z0 + 719468
  let era := z.fdiv 146097
  let doe := z - era * 146097
  let yoe := (doe - doe / 1460 + doe / 36524 - doe / 146096) / 365
  let doy := doe - (365 * yoe + yoe / 4 - yoe / 100)
  let mp := (5 * doy + 2) / 153
  let d := doy - (153 * mp + 2) / 5 + 1
  let m := mp + (if mp < 10 then 3 else -9)
  (yoe + era * 400 + (if m ≤ 2 then 1 else 0), m, d)

/-- Zero-pad a month/day number to two digits. -/
def pad2 (n : Int) : String := if n < 10 then "0" ++ toString n else toString n

/-- Zero-pad a year number to four digits. -/
def pad4 (n : Int) : String :=
  if n < 10 then "000" ++ toString n
  else if n < 100 then "00" ++ toString n
  else if n < 1000 then "0" ++ toString n
  else toString n

/-- The `%Y-%m-%d` rendering of a day count since the epoch. -/
def formatYmd (z : Int) : String :=
  pad4 (civilFromDays z).1 ++ "-" ++ pad2 (civilFromDays z).2.1 ++ "-" ++ pad2 (civilFromDays z).2.2

/-- Model of `dt.strftime("%Y-%m-%d")`: the calendar day of the local clock
`instant + tzOffset` (floor division, so pre-epoch instants land on the
correct day). -/
def AwareDT.strftimeDate (d : AwareDT) : String :=
  formatYmd ((d.instant + d.tzOffset).fdiv 86400)

/-- One raw feedparser entry.  `published_parsed` / `updated_parsed` are the
optional parsed timestamps (naive seconds since the epoch, expressed in
UTC); `none` models a missing attribute as well as a falsy value, matching
`hasattr(entry, f) and entry.f`.  `summary = none` models a missing
`summary` attribute. -/
structure Entry where
  published_parsed : Option Int
  updated_parsed : Option Int
  title : String
  link : String
  summary : Option String
deriving DecidableEq, Repr

/-- The dictionary appended to `articles` for each kept entry. -/
structure Article where
  title : String
  title_ja : String
  link : String
  published : String
  summary : String
  summary_ja : String
  source : String
deriving DecidableEq, Repr

/-- Observable outcome of one `translate_text` call: the returned string,
whether the external service was invoked, and the lines printed. -/
structure TransResult where
  result : String
  invoked : Bool
  log : List String
deriving DecidableEq, Repr

/-- Model of `translate_text`: empty input returns `""` at once; otherwise the
external service (`svc`, whose `.error` case models a raised exception) is
called, and any exception is caught, printed and turned into `""`. -/
def translate_text (svc : String → Except String String) (text : String) : TransResult :=
  if text = "" then ⟨"", false, []⟩
  else
    match svc text with
    | .ok t => ⟨t, true, []⟩
    | .error e => ⟨"", true, ["    翻訳エラー: " ++ e]⟩

/-- One left-to-right pass implementing `re.sub(r'<[^>]+>', '', s)`.
`none` is scanning mode; `some buf` means a `<` has been read and `buf`
holds, reversed, the characters read since it.  A `>` arriving with a
non-empty `buf` closes the tag and drops it; a `>` arriving immediately
after the `<` means the pattern cannot match there (`[^>]+` needs at least
one character), so `<>` is kept; at end of input an unclosed `<` and its
buffer are kept as literal text. -/
def stripTagsGo : Option (List Char) → List Char → List Char
  | none, [] => []
  | some buf, [] => '<' :: buf.reverse
  | none, c :: rest =>
    if c = '<' then stripTagsGo (some []) rest else c :: stripTagsGo none rest
  | some buf, c :: rest =>
    if c = '>' then
      if buf.isEmpty then '<' :: '>' :: stripTagsGo none rest
      else stripTagsGo none rest
    else stripTagsGo (some (c :: buf)) rest

/-- The substitution `re.sub(r'<[^>]+>', '', s)` on a character list. -/
def stripTags (s : List Char) : List Char := stripTagsGo none s

/-- Lines 86–87: strip tags, then `summary[:200] + "..."` exactly when the
stripped text has more than 200 characters. -/
def processSummaryList (s : List Char) : List Char :=
  if 200 < (stripTags s).length then (stripTags s).take 200 ++ ['.', '.', '.']
  else stripTags s

/-- Summary processing on strings (Python strings index by code point, so a
`List Char` of code points is the faithful model). -/
def processSummary (s : String) : String := String.mk (processSummaryList s.toList)

/-- Lines 83–87: the `summary` local of the loop body — `""` when the entry
has no summary attribute, the tag-stripped and truncated text otherwise. -/
def entrySummary (e : Entry) : String :=
  match e.summary with
  | some s => processSummary s
  | none => ""

/-- The body of the `for entry in feed.entries[:10]` loop of `fetch_feed`:
`some article` when the entry is appended, `none` when the loop
`continue`s. -/
def processEntry (svc : String → Except String String) (cutoff_time : AwareDT)
    (sourceName : String) (entry : Entry) : Option Article :=
  let published_dt : Option AwareDT :=
    match entry.published_parsed with
    | some t => some ((utcDatetime t).astimezone JST_offset)
    | none =>
      match entry.updated_parsed with
      | some t => some ((utcDatetime t).astimezone JST_offset)
      | none => none
  match published_dt with
  | none => none
  | some dt =>
    if dt.ltDT cutoff_time then none
    else
      let published := dt.strftimeDate
      let summary := entrySummary entry
      let title_ja := (translate_text svc entry.title).result
      let summary_ja := if summary = "" then "" else (translate_text svc summary).result
      some ⟨entry.title, title_ja, entry.link, published, summary, summary_ja, sourceName⟩

/-- Model of `fetch_feed`: the parse outcome of the feed URL is passed in as an
`Except` (its `.error` case models a raised exception, caught by the
`except` clause which prints the feed's name).  Returns the article list and
the error log. -/
def fetch_feed (svc : String → Except String String) (nowInstant : Int)
    (feedName : String) (parsed : Except String (List Entry)) :
    List Article × List String :=
  match parsed with
  | .error e => ([], ["Error fetching " ++ feedName ++ ": " ++ e])
  | .ok entries =>
    ((entries.take 10).filterMap (processEntry svc (cutoffDT nowInstant) feedName), [])

/-- The aggregation loop of `main`: each feed's articles extended onto
`all_articles` in registry order. -/
def aggregate (svc : String → Except String String) (nowInstant : Int)
    (feeds : List (String × Except String (List Entry))) : List Article :=
  (feeds.map (fun f => (fetch_feed svc nowInstant f.1 f.2).1)).flatten

/-- Insert an article after every article with a strictly larger `published`
key: the insertion step of a stable non-ascending sort, the characterisation
of Python's stable `list.sort(key=lambda x: x["published"], reverse=True)`. -/
def insertDesc (a : Article) : List Article → List Article
  | [] => [a]
  | b :: l => if a.published < b.published then b :: insertDesc a l else a :: b :: l

/-- Stable sort of the aggregated list, non-ascending by `published`. -/
def sortDesc : List Article → List Article
  | [] => []
  | a :: l => insertDesc a (sortDesc l)

/-- The list `all_articles` as rendered: aggregated in registry order, then stably
sorted by date, newest first. -/
def allArticlesSorted (svc : String → Except String String) (nowInstant : Int)
    (feeds : List (String × Except String (List Entry))) : List Article :=
  sortDesc (aggregate svc nowInstant feeds)

/-- Lines 152–155 of `main`: insert `today` at the front when absent, then
truncate to the first 30 entries. -/
def ledgerStep (archives : List String) (today : String) : List String :=
  (if today ∈ archives then archives else today :: archives).take 30

/-- The ledger after a sequence of runs recording the given dates in order,
starting from the empty ledger. -/
def runLedger (dates : List String) : List String := dates.foldl ledgerStep []

/-- The value `today = datetime.now(JST).strftime("%Y-%m-%d")`. -/
def todayString (nowInstant : Int) : String := (nowJST nowInstant).strftimeDate

/-- Relative paths of the HTML files `main` writes, in write order: the
dated archive snapshot when `all_articles` is non-empty, then always
`index.html`. -/
def writtenPages (all_articles : List Article) (nowInstant : Int) : List String :=
  (if all_articles.isEmpty then [] else ["archives/" ++ todayString nowInstant ++ ".html"])
    ++ ["index.html"]

/-- Timestamp resolution as the spec states it: the primary
`published_parsed` field, else the fallback `updated_parsed` field. -/
def resolveTs (e : Entry) : Option Int :=
  match e.published_parsed with
  | some t => some t
  | none => e.updated_parsed

/-! ## Helper lemmas -/

/-- A tag-free text passes through the stripper unchanged. -/
theorem stripTagsGo_no_tag (s : List Char) (h : '<' ∉ s) : stripTagsGo none s = s := by
  induction s with
  | nil => rfl
  | cons c rest ih =>
    have hc : c ≠ '<' := fun hEq => h (hEq ▸ List.mem_cons_self c rest)
    have hrest : '<' ∉ rest := fun hm => h (List.mem_cons_of_mem _ hm)
    simp [stripTagsGo, hc, ih hrest]

/-- A dated archive page name is never the index page name. -/
theorem archiveName_ne_index (t : String) : "archives/" ++ t ++ ".html" ≠ "index.html" := by
  intro hEq
  have hlen := congrArg String.length hEq
  rw [String.length_append, String.length_append] at hlen
  have h1 : ("archives/" : String).length = 9 := rfl
  have h2 : (".html" : String).length = 5 := rfl
  have h3 : ("index.html" : String).length = 10 := rfl
  rw [h1, h2, h3] at hlen
  omega

/-- Characterisation of `processEntry` by the resolved timestamp: the naive UTC
timestamp is compared as an instant against the cutoff instant, and the
`published` field is the calendar day of the JST-shifted clock. -/
theorem processEntry_eq (svc : String → Except String String) (cutoff : AwareDT)
    (name : String) (e : Entry) :
    processEntry svc cutoff name e =
      match resolveTs e with
      | none => none
      | some ts =>
        if ts < cutoff.instant then none
        else some ⟨e.title, (translate_text svc e.title).result, e.link,
          formatYmd ((ts + JST_offset).fdiv 86400), entrySummary e,
          if entrySummary e = "" then "" else (translate_text svc (entrySummary e)).result,
          name⟩ := by
  rcases hp : e.published_parsed with _ | t
  · rcases hu : e.updated_parsed with _ | t <;>
      simp [processEntry, resolveTs, hp, hu, AwareDT.ltDT, utcDatetime,
        AwareDT.astimezone, AwareDT.strftimeDate]
  · simp [processEntry, resolveTs, hp, AwareDT.ltDT, utcDatetime,
      AwareDT.astimezone, AwareDT.strftimeDate]

/-- An entry with no resolvable timestamp is skipped. -/
theorem processEntry_none (svc : String → Except String String) (cutoff : AwareDT)
    (name : String) (e : Entry) (h : resolveTs e = none) :
    processEntry svc cutoff name e = none := by
  rw [processEntry_eq, h]

/-- An entry whose timestamp resolves to `ts` is kept iff the instant `ts`
is not below the cutoff instant. -/
theorem processEntry_some (svc : String → Except String String) (cutoff : AwareDT)
    (name : String) (e : Entry) (ts : Int) (h : resolveTs e = some ts) :
    processEntry svc cutoff name e =
      if ts < cutoff.instant then none
      else some ⟨e.title, (translate_text svc e.title).result, e.link,
        formatYmd ((ts + JST_offset).fdiv 86400), entrySummary e,
        if entrySummary e = "" then "" else (translate_text svc (entrySummary e)).result,
        name⟩ := by
  rw [processEntry_eq, h]

/-- Membership through descending insertion. -/
theorem mem_insertDesc {x a : Article} {l : List Article} :
    x ∈ insertDesc a l ↔ x = a ∨ x ∈ l := by
  induction l with
  | nil => simp [insertDesc]
  | cons b t ih =>
    simp only [insertDesc]
    by_cases hab : a.published < b.published
    · rw [if_pos hab]
      simp only [List.mem_cons, ih]
      tauto
    · rw [if_neg hab]
      simp only [List.mem_cons]

/-- Descending insertion preserves the non-ascending pairwise order. -/
theorem pairwise_insertDesc {a : Article} {l : List Article}
    (h : List.Pairwise (fun x y => ¬ x.published < y.published) l) :
    List.Pairwise (fun x y => ¬ x.published < y.published) (insertDesc a l) := by
  induction l with
  | nil => simp [insertDesc]
  | cons b t ih =>
    rw [List.pairwise_cons] at h
    obtain ⟨hb, ht⟩ := h
    simp only [insertDesc]
    by_cases hab : a.published < b.published
    · rw [if_pos hab, List.pairwise_cons]
      refine ⟨?_, ih ht⟩
      intro y hy
      rcases mem_insertDesc.mp hy with rfl | hyt
      · exact lt_asymm hab
      · exact hb y hyt
    · rw [if_neg hab, List.pairwise_cons]
      refine ⟨?_, List.pairwise_cons.mpr ⟨hb, ht⟩⟩
      intro y hy
      rcases List.mem_cons.mp hy with rfl | hyt
      · exact hab
      · intro hay
        exact hab (lt_of_lt_of_le hay (not_lt.mp (hb y hyt)))

/-- The stable descending sort is pairwise non-ascending on `published`. -/
theorem pairwise_sortDesc (l : List Article) :
    List.Pairwise (fun x y => ¬ x.published < y.published) (sortDesc l) := by
  induction l with
  | nil => exact List.Pairwise.nil
  | cons a t ih =>
    simp only [sortDesc]
    exact pairwise_insertDesc ih

/-- Inserting an article dated `d` lands in front of every other article
dated `d`; inserting an article with any other date leaves the `d`-filtered
sublist unchanged. -/
theorem filter_insertDesc (a : Article) (l : List Article) (d : String) :
    (insertDesc a l).filter (fun x => x.published == d)
      = if a.published = d then a :: l.filter (fun x => x.published == d)
        else l.filter (fun x => x.published == d) := by
  induction l with
  | nil =>
    by_cases had : a.published = d <;> simp [insertDesc, List.filter_cons, had]
  | cons b t ih =>
    simp only [insertDesc]
    by_cases hab : a.published < b.published
    · rw [if_pos hab, List.filter_cons, List.filter_cons]
      by_cases had : a.published = d
      · have hbd : ¬ b.published = d := by
          intro hEq
          exact absurd hab (by rw [had, hEq]; exact lt_irrefl d)
        simp [had, hbd, ih]
      · by_cases hbd : b.published = d <;> simp [had, hbd, ih]
    · rw [if_neg hab, List.filter_cons, List.filter_cons]
      by_cases had : a.published = d <;> simp [had]

/-- The stable descending sort preserves, for every date, the relative
order of the articles carrying that date. -/
theorem filter_sortDesc (l : List Article) (d : String) :
    (sortDesc l).filter (fun x => x.published == d)
      = l.filter (fun x => x.published == d) := by
  induction l with
  | nil => rfl
  | cons a t ih =>
    simp only [sortDesc]
    rw [filter_insertDesc, List.filter_cons]
    by_cases had : a.published = d <;> simp [had, ih]

/-- Recording a date already present in a ledger that satisfies the length
bound changes nothing. -/
theorem ledgerStep_of_mem (l : List String) (d : String) (h : d ∈ l)
    (hlen : l.length ≤ 30) : ledgerStep l d = l := by
  rw [ledgerStep, if_pos h, List.take_of_length_le hlen]

/-- After recording a sequence of distinct dates starting from the empty
ledger, the ledger is exactly the reversed date sequence truncated to 30. -/
theorem runLedger_eq_take (dates : List String) (h : dates.Nodup) :
    runLedger dates = dates.reverse.take 30 := by
  induction dates using List.reverseRecOn with
  | nil => rfl
  | append_singleton ds d ih =>
    rcases List.nodup_append.mp h with ⟨hds, -, hdisj⟩
    have hd : d ∉ ds := fun hmem => hdisj hmem (by simp)
    have hstep : runLedger (ds ++ [d]) = ledgerStep (runLedger ds) d := by
      rw [runLedger, List.foldl_append]
      rfl
    rw [hstep, ih hds]
    have hd30 : d ∉ ds.reverse.take 30 := fun hmem =>
      hd (List.mem_reverse.mp (List.mem_of_mem_take hmem))
    rw [ledgerStep, if_neg hd30, List.reverse_append]
    show (d :: ds.reverse.take 30).take 30 = (d :: ds.reverse).take 30
    rw [List.take_cons (by omega), List.take_cons (by omega), List.take_take]
    norm_num

/-! ## Claims -/

/-- Claim C1: an entry processed by `fetch_feed` is kept iff a timestamp
resolves (primary `published_parsed`, else fallback `updated_parsed`) and it
is not strictly earlier than the cutoff `now − 48 h`: no resolvable
timestamp drops the entry, a strictly older timestamp drops it, and a
timestamp equal to the cutoff keeps it. -/
theorem C1_recency_filter (svc : String → Except String String) (nowInstant : Int)
    (feedName : String) (entries : List Entry) (e : Entry) :
    (fetch_feed svc nowInstant feedName (.ok entries)).1
      = (entries.take 10).filterMap (processEntry svc (cutoffDT nowInstant) feedName) ∧
    ((processEntry svc (cutoffDT nowInstant) feedName e).isSome ↔
      ∃ ts, resolveTs e = some ts ∧ nowInstant - HOURS_LIMIT * 3600 ≤ ts) := by
  refine ⟨rfl, ?_⟩
  have hcut : (cutoffDT nowInstant).instant = nowInstant - HOURS_LIMIT * 3600 := rfl
  rcases hr : resolveTs e with _ | ts
  · rw [processEntry_none _ _ _ _ hr]
    simp [hr]
  · rw [processEntry_some _ _ _ _ _ hr, hcut]
    by_cases hlt : ts < nowInstant - HOURS_LIMIT * 3600
    · rw [if_pos hlt]
      simp
      omega
    · rw [if_neg hlt]
      simp
      omega

/-- Claim C2: a feed whose fetch/parse raises is caught at feed level,
logged with the feed's name, contributes zero articles, and aggregation over
the remaining feeds proceeds exactly as if the failed feed were absent. -/
theorem C2_feed_failure_isolated (svc : String → Except String String) (nowInstant : Int)
    (feedName err : String) (pre post : List (String × Except String (List Entry))) :
    fetch_feed svc nowInstant feedName (.error err)
      = ([], ["Error fetching " ++ feedName ++ ": " ++ err]) ∧
    aggregate svc nowInstant (pre ++ (feedName, .error err) :: post)
      = aggregate svc nowInstant pre ++ aggregate svc nowInstant post := by
  refine ⟨rfl, ?_⟩
  simp [aggregate, fetch_feed]

/-- Claim C5: the stored summary is the tag-stripped text truncated to its
first 200 characters plus `"..."` exactly when the tag-stripped text exceeds
200 characters, and is the tag-stripped text unchanged otherwise. -/
theorem C5_summary_truncation (s : List Char) :
    (200 < (stripTags s).length →
      processSummaryList s = (stripTags s).take 200 ++ ['.', '.', '.']) ∧
    ((stripTags s).length ≤ 200 → processSummaryList s = stripTags s) := by
  constructor
  · intro h
    rw [processSummaryList, if_pos h]
  · intro h
    rw [processSummaryList, if_neg (by omega)]

/-- Witness for C5 at a 201-character tag-free summary. -/
theorem C5_summary_truncation_witness :
    200 < (stripTags (List.replicate 201 'a')).length ∧
    processSummaryList (List.replicate 201 'a')
      = (stripTags (List.replicate 201 'a')).take 200 ++ ['.', '.', '.'] := by
  have hmem : '<' ∉ List.replicate 201 'a' := by
    intro h
    exact absurd (List.eq_of_mem_replicate h) (by decide)
  have hlen : 200 < (stripTags (List.replicate 201 'a')).length := by
    rw [stripTags, stripTagsGo_no_tag _ hmem, List.length_replicate]
    omega
  exact ⟨hlen, (C5_summary_truncation _).1 hlen⟩

/-- Claim C3: from the empty ledger, recording distinct dates keeps the
ledger at most 30 long and duplicate-free, and it equals exactly the
most-recently-recorded dates, newest first, truncated to 30. -/
theorem C3_ledger_invariant (dates : List String) (h : dates.Nodup) :
    runLedger dates = dates.reverse.take 30 ∧
    (runLedger dates).length ≤ 30 ∧
    (runLedger dates).Nodup := by
  have heq := runLedger_eq_take dates h
  refine ⟨heq, ?_, ?_⟩
  · rw [heq, List.length_take]
    omega
  · rw [heq]
    exact List.Nodup.sublist (List.take_sublist _ _) (List.nodup_reverse.mpr h)

/-- Witness for C3 at a concrete two-day run. -/
theorem C3_ledger_invariant_witness :
    runLedger ["2024-01-01", "2024-01-02"]
        = (["2024-01-01", "2024-01-02"] : List String).reverse.take 30 ∧
    (runLedger ["2024-01-01", "2024-01-02"]).length ≤ 30 ∧
    (runLedger ["2024-01-01", "2024-01-02"]).Nodup :=
  C3_ledger_invariant _ (by decide)

/-- Claim C4, read over arbitrary ledgers, is false on the code: from the
(invariant-violating) persisted ledger `["a", "a"]`, recording `"a"` twice
leaves two occurrences of `"a"`, not exactly one. -/
theorem C4_counterexample :
    ¬ (ledgerStep (ledgerStep ["a", "a"] "a") "a").count "a" = 1 := by decide

/-- Claim C4 (amended): for any ledger satisfying the ledger invariant (no
duplicates, length ≤ 30), recording a date puts exactly one occurrence of it
in the ledger and recording it a second time changes nothing. -/
theorem C4_record_idempotent (l : List String) (d : String)
    (hnd : l.Nodup) (hlen : l.length ≤ 30) :
    (ledgerStep l d).count d = 1 ∧
    ledgerStep (ledgerStep l d) d = ledgerStep l d := by
  by_cases hd : d ∈ l
  · have hstep : ledgerStep l d = l := ledgerStep_of_mem l d hd hlen
    constructor
    · rw [hstep]
      exact List.count_eq_one_of_mem hnd hd
    · rw [hstep, hstep]
  · have hstep : ledgerStep l d = d :: l.take 29 := by
      rw [ledgerStep, if_neg hd, List.take_cons (by omega)]
    have hd29 : d ∉ l.take 29 := fun hm => hd (List.mem_of_mem_take hm)
    have hlen2 : (ledgerStep l d).length ≤ 30 := by
      rw [ledgerStep, List.length_take]
      omega
    have hmem : d ∈ ledgerStep l d := by
      rw [hstep]
      exact List.mem_cons_self _ _
    constructor
    · rw [hstep]
      simp [List.count_cons, List.count_eq_zero.mpr hd29]
    · exact ledgerStep_of_mem _ _ hmem hlen2

/-- Witness for the amended C4 at a concrete valid ledger. -/
theorem C4_record_idempotent_witness :
    (ledgerStep ["2024-01-14"] "2024-01-15").count "2024-01-15" = 1 ∧
    ledgerStep (ledgerStep ["2024-01-14"] "2024-01-15") "2024-01-15"
      = ledgerStep ["2024-01-14"] "2024-01-15" :=
  C4_record_idempotent _ _ (by decide) (by decide)

/-- Claim C6: `translate_text` maps empty input to `""` without invoking the
external service; a raising call is caught and logged, yielding `""` instead
of propagating; and the translator never affects whether an entry is kept,
so a translation failure drops no article. -/
theorem C6_translate_best_effort (svc svc' : String → Except String String)
    (text e : String) (cutoff : AwareDT) (name : String) (ent : Entry)
    (herr : svc text = .error e) (hne : text ≠ "") :
    translate_text svc "" = ⟨"", false, []⟩ ∧
    translate_text svc text = ⟨"", true, ["    翻訳エラー: " ++ e]⟩ ∧
    ((processEntry svc cutoff name ent).isSome
      ↔ (processEntry svc' cutoff name ent).isSome) := by
  refine ⟨rfl, ?_, ?_⟩
  · rw [translate_text, if_neg hne, herr]
  · rcases hr : resolveTs ent with _ | ts
    · rw [processEntry_none _ _ _ _ hr, processEntry_none _ _ _ _ hr]
    · rw [processEntry_some svc _ _ _ _ hr, processEntry_some svc' _ _ _ _ hr]
      by_cases hlt : ts < cutoff.instant
      · rw [if_pos hlt, if_pos hlt]
      · rw [if_neg hlt, if_neg hlt]
        simp

/-- Witness for C6 with a service that always raises. -/
theorem C6_translate_best_effort_witness :
    translate_text (fun _ => .error "boom") "" = ⟨"", false, []⟩ ∧
    translate_text (fun _ => .error "boom") "hello"
      = ⟨"", true, ["    翻訳エラー: " ++ "boom"]⟩ ∧
    ((processEntry (fun _ => .error "boom") ⟨0, JST_offset⟩ "Feed"
        ⟨some 0, none, "t", "l", none⟩).isSome
      ↔ (processEntry (fun s => .ok s) ⟨0, JST_offset⟩ "Feed"
        ⟨some 0, none, "t", "l", none⟩).isSome) :=
  C6_translate_best_effort _ _ "hello" "boom" _ _ _ rfl (by decide)

/-- Claim C7: the aggregated article list is sorted stably and non-ascending
by the `published` date string: no article is followed by one with a
strictly larger date, and articles with equal dates keep their aggregation
order (feed registry order, then within-feed order). -/
theorem C7_sort_stable_desc (svc : String → Except String String) (nowInstant : Int)
    (feeds : List (String × Except String (List Entry))) :
    List.Pairwise (fun a b => ¬ a.published < b.published)
        (allArticlesSorted svc nowInstant feeds) ∧
    ∀ d : String,
      (allArticlesSorted svc nowInstant feeds).filter (fun a => a.published == d)
        = (aggregate svc nowInstant feeds).filter (fun a => a.published == d) :=
  ⟨pairwise_sortDesc _, fun d => filter_sortDesc _ d⟩

/-- Claim C8: a resolvable naive timestamp is interpreted as UTC and
converted to JST before both the recency comparison and the formatting of
`published`, and the cutoff is computed in JST as well: the kept/dropped
decision compares the instant against the cutoff instant `now − 48 h`
(conversion leaves instants unchanged), and the formatted day is the
calendar day of the JST clock `ts + 9 h`. -/
theorem C8_timezone (svc : String → Except String String) (nowInstant : Int)
    (name : String) (e : Entry) (ts : Int) (h : resolveTs e = some ts) :
    (cutoffDT nowInstant).tzOffset = JST_offset ∧
    ((processEntry svc (cutoffDT nowInstant) name e).isSome
      ↔ (cutoffDT nowInstant).instant ≤ ts) ∧
    ∀ a, processEntry svc (cutoffDT nowInstant) name e = some a →
      a.published = formatYmd ((ts + JST_offset).fdiv 86400) := by
  refine ⟨rfl, ?_, ?_⟩
  · rw [processEntry_some _ _ _ _ _ h]
    by_cases hlt : ts < (cutoffDT nowInstant).instant
    · rw [if_pos hlt]
      simp
      omega
    · rw [if_neg hlt]
      simp
      omega
  · intro a ha
    rw [processEntry_some _ _ _ _ _ h] at ha
    by_cases hlt : ts < (cutoffDT nowInstant).instant
    · rw [if_pos hlt] at ha
      exact absurd ha (by simp)
    · rw [if_neg hlt] at ha
      injection ha with ha
      rw [← ha]

/-- Witness for C8 at the epoch instant (kept entry, formatted on the JST
clock). -/
theorem C8_timezone_witness :
    (cutoffDT 0).tzOffset = JST_offset ∧
    ((processEntry (fun s => .ok s) (cutoffDT 0) "Feed"
        ⟨some 0, none, "t", "l", none⟩).isSome
      ↔ (cutoffDT 0).instant ≤ 0) ∧
    ∀ a, processEntry (fun s => .ok s) (cutoffDT 0) "Feed"
        ⟨some 0, none, "t", "l", none⟩ = some a →
      a.published = formatYmd ((0 + JST_offset).fdiv 86400) :=
  C8_timezone _ 0 "Feed" _ 0 rfl

/-- Claim C9: every run writes `index.html`, and the dated archive snapshot
named by the run's JST date is written iff the article list is non-empty. -/
theorem C9_pages_written (all_articles : List Article) (nowInstant : Int) :
    "index.html" ∈ writtenPages all_articles nowInstant ∧
    (("archives/" ++ todayString nowInstant ++ ".html") ∈ writtenPages all_articles nowInstant
      ↔ all_articles ≠ []) := by
  unfold writtenPages
  rcases all_articles with _ | ⟨a, l⟩
  · simp
    exact archiveName_ne_index _
  · simp

/-- Claim C10: `fetch_feed` looks only at the first 10 parsed entries, so a
feed contributes at most 10 articles however many entries it has. -/
theorem C10_at_most_ten (svc : String → Except String String) (nowInstant : Int)
    (name : String) (entries : List Entry) :
    (fetch_feed svc nowInstant name (.ok entries)).1
      = (fetch_feed svc nowInstant name (.ok (entries.take 10))).1 ∧
    (fetch_feed svc nowInstant name (.ok entries)).1.length ≤ 10 := by
  constructor
  · simp [fetch_feed, List.take_take]
  · show ((entries.take 10).filterMap (processEntry svc (cutoffDT nowInstant) name)).length ≤ 10
    refine le_trans (List.length_filterMap_le _ _) ?_
    simp [List.length_take]

end AINews
